import Mathlib

/-!
Verification of the sitemap link-extractor core
(`apps/server/src/services/link-extractor.service.ts`).

The service is embedded shallowly.  The network and the two external
parsing libraries (xml2js, cheerio) are an oracle `Env` of pure
functions: `get` is `axios.get` (`none` = rejected promise), `headOk`
is whether `axios.head` succeeds, `parseXml` is
`xml2js.Parser.parseStringPromise` projected onto the fields the
service reads, `anchors` and `sitemapLinkHref` are the two cheerio
queries the service performs, and `resolve` is `url.resolve`.  The
service's own logic — robots.txt line matching, candidate aggregation,
deduplication, the recursive sitemap walk, the regex fallback — is
translated function by function.  JavaScript strings are Lean
`String`s, worked on through their `List Char` data so that every
operation evaluates by `decide`; regular-expression and truthiness
semantics are spelled out where the source relies on them.

The unbounded recursion of `extractLinksFromSitemap` (the source has
no depth bound) is totalized with an explicit fuel parameter; every
theorem about it is stated for the fuels that reach the code path in
question.
-/

/-- `SitemapPath` of the source: a located, not-yet-fetched sitemap. -/
structure SitemapPath where
  url : String
deriving DecidableEq

/-- `PageLink` of the source: one discovered destination URL with its
optional metadata.  A missing optional field is `none` (JS
`undefined`). -/
structure PageLink where
  url : String
  text : Option String
  source : Option String
  lastmod : Option String
  priority : Option String
  changefreq : Option String
deriving DecidableEq

/-- One anchor element as cheerio presents it to the scraper: its
`href` attribute (`none` when absent) and its visible text. -/
structure Anchor where
  href : Option String
  text : String
deriving DecidableEq

/-- One `<url>` child of a `<urlset>` as xml2js presents it.  xml2js
wraps every present child tag in a nonempty array and the service only
ever reads index 0, so each field models `tag[0]` when the tag is
present and `none` when it is absent. -/
structure UrlEntry where
  loc : Option String
  lastmod : Option String
  priority : Option String
  changefreq : Option String
deriving DecidableEq

/-- The shape of a parsed sitemap document, projected onto the four
branches the service distinguishes: `result.sitemapindex?.sitemap`
(each nested `<sitemap>`'s `loc[0]`, `none` when that `<loc>` is
absent), `result.urlset?.url`, `result["news:news"]`, anything
else. -/
inductive XmlDoc where
  | sitemapindex (sitemaps : List (Option String))
  | urlset (urls : List UrlEntry)
  | news
  | other
deriving DecidableEq

/-- The external world: HTTP plus the two parsing libraries, as pure
oracles.  One invocation of the service is deterministic over a fixed
`Env` (the source re-fetches robots.txt; over a pure oracle the two
fetches agree). -/
structure Env where
  get : String → Option String
  headOk : String → Bool
  parseXml : String → Option XmlDoc
  anchors : String → List Anchor
  sitemapLinkHref : String → Option String
  resolve : String → String → String

/-! ### Character-level string operations

JavaScript string semantics, spelled out over `List Char` so that all
of them compute inside the kernel. -/

/-- Lowercasing, `String.toLowerCase` on the characters the service
actually compares (ASCII). -/
def lowerL (l : List Char) : List Char := l.map Char.toLower

/-- The whitespace class of JavaScript `String.prototype.trim` (the
ASCII part, which is all the service's inputs use). -/
def isTrimmable (c : Char) : Bool :=
  c = ' ' || c = '\t' || c = '\n' || c = '\r' || c = '\x0b' || c = '\x0c'

/-- JS `trim`: strip leading and trailing whitespace. -/
def trimL (l : List Char) : List Char :=
  ((l.dropWhile isTrimmable).reverse.dropWhile isTrimmable).reverse

/-- A JS regex line terminator, which `.` never matches. -/
def isLineTerm (c : Char) : Bool :=
  c = '\n' || c = '\r' || c = Char.ofNat 0x2028 || c = Char.ofNat 0x2029

/-- `split("\n")`. -/
def splitOnNl : List Char → List (List Char)
  | [] => [[]]
  | c :: cs =>
    if c = '\n' then [] :: splitOnNl cs
    else
      match splitOnNl cs with
      | [] => [[c]]
      | l :: ls => (c :: l) :: ls

/-- `pat` occurs (contiguously) somewhere in the second list. -/
def containsL (pat : List Char) : List Char → Bool
  | [] => pat.isPrefixOf []
  | c :: cs => pat.isPrefixOf (c :: cs) || containsL pat cs

/-- `/pat/i.test(hay)` for a literal pattern: case-insensitive
containment. -/
def containsCI (hay pat : String) : Bool :=
  containsL (lowerL pat.data) (lowerL hay.data)

/-- `suffix` is a suffix of `l`. -/
def endsWithL (suffix l : List Char) : Bool :=
  suffix.reverse.isPrefixOf l.reverse

/-- `sitemapUrl.toLowerCase().endsWith(".xml")`, the filter of
`getAllSitemapPaths`. -/
def xmlSuffix (u : String) : Bool := endsWithL ".xml".data (lowerL u.data)

/-- `line.match(/Sitemap: (.*)/i)`: the capture of the first match, if
any.  The pattern matches at the first position where `Sitemap: `
occurs case-insensitively; the greedy `(.*)` then captures the rest of
the line up to a line terminator (`.` matches neither `\n` nor
`\r`). -/
def matchDirectiveLine : List Char → Option (List Char)
  | [] => none
  | c :: cs =>
    if List.isPrefixOf "sitemap: ".data (lowerL (c :: cs)) then
      some (((c :: cs).drop 9).takeWhile (fun ch => !isLineTerm ch))
    else matchDirectiveLine cs

/-! ### Sitemap Locator -/

def ROBOTS_TXT : String := "/robots.txt"

/-- `extractSitemapUrl`: head-probe `{websiteUrl}/sitemap.xml` (string
concatenation in the source, not `url.resolve`). -/
def extractSitemapUrl (env : Env) (websiteUrl : String) : Option SitemapPath :=
  if env.headOk (websiteUrl ++ "/sitemap.xml") then some ⟨websiteUrl ++ "/sitemap.xml"⟩
  else none

/-- `extractSitemapsFromRobotsTxt`: fetch robots.txt, collect the
trimmed capture of `/Sitemap: (.*)/i` from every line; any fetch
failure yields `[]`. -/
def extractSitemapsFromRobotsTxt (env : Env) (websiteUrl : String) : List SitemapPath :=
  match env.get (env.resolve websiteUrl ROBOTS_TXT) with
  | none => []
  | some body =>
    (splitOnNl body.data).filterMap fun line =>
      (matchDirectiveLine line).map fun captured => ⟨String.mk (trimL captured)⟩

/-- `checkRobotsTxtForSitemapPath`: `/sitemap/i.test(data) ||
/Sitemap: /i.test(data)`; `false` on fetch failure. -/
def checkRobotsTxtForSitemapPath (env : Env) (websiteUrl : String) : Bool :=
  match env.get (env.resolve websiteUrl ROBOTS_TXT) with
  | none => false
  | some body => containsCI body "sitemap" || containsCI body "Sitemap: "

/-- `findSitemapInHtmlHeader`: fetch the root page, read
`$('link[rel="sitemap"]').attr("href")`, resolve a truthy href
against the site URL. -/
def findSitemapInHtmlHeader (env : Env) (websiteUrl : String) : Option SitemapPath :=
  match env.get websiteUrl with
  | none => none
  | some body =>
    match env.sitemapLinkHref body with
    | none => none
    | some href => if href = "" then none else some ⟨env.resolve websiteUrl href⟩

/-- The fixed probe list of `checkCommonSitemapPaths`. -/
def commonPaths : List String :=
  ["/sitemap.xml", "/sitemap_index.xml", "/sitemap-index.xml", "/sitemapindex.xml",
   "/sitemap/", "/sitemaps/", "/sitemap/sitemap.xml", "/wp-sitemap.xml",
   "/news-sitemap.xml", "/image-sitemap.xml", "/video-sitemap.xml", "/post-sitemap.xml"]

/-- `checkCommonSitemapPaths`: head-probe each common path resolved
against the site URL, keeping the hits in probe order. -/
def checkCommonSitemapPaths (env : Env) (websiteUrl : String) : List SitemapPath :=
  commonPaths.filterMap fun path =>
    let sitemapUrl := env.resolve websiteUrl path
    if env.headOk sitemapUrl then some ⟨sitemapUrl⟩ else none

/-- The guard of the common-path probe in `getAllSitemapPaths`:
`!hasSitemapInRobotsTxt || robotsSitemaps.length === 0`. -/
def shouldCheckCommonPaths (env : Env) (websiteUrl : String) : Bool :=
  !checkRobotsTxtForSitemapPath env websiteUrl
    || (extractSitemapsFromRobotsTxt env websiteUrl).length == 0

/-- Insertion-ordered deduplication, the semantics of iterating
`new Set(...)`: skip a URL already seen, otherwise keep it and record
it. -/
def dedupFirstGo (seen : List String) : List String → List String
  | [] => []
  | u :: rest =>
    if u ∈ seen then dedupFirstGo seen rest else u :: dedupFirstGo (u :: seen) rest

/-- `Array.from(new Set(l))`: first occurrences, in order. -/
def dedupFirst (l : List String) : List String := dedupFirstGo [] l

/-- The concatenation built by `getAllSitemapPaths` before
deduplication: robots.txt directives, the standard-path hit, the
HTML-header hit, then (conditionally) the common-path hits. -/
def locatorCandidates (env : Env) (websiteUrl : String) : List SitemapPath :=
  extractSitemapsFromRobotsTxt env websiteUrl
    ++ (extractSitemapUrl env websiteUrl).toList
    ++ (findSitemapInHtmlHeader env websiteUrl).toList
    ++ (if shouldCheckCommonPaths env websiteUrl then checkCommonSitemapPaths env websiteUrl
        else [])

/-- `getAllSitemapPaths`: aggregate the candidates, keep the URLs whose
lowercased form ends in `.xml`, deduplicate preserving first
occurrences, and rewrap. -/
def getAllSitemapPaths (env : Env) (websiteUrl : String) : List SitemapPath :=
  (dedupFirst (((locatorCandidates env websiteUrl).map fun s => s.url).filter xmlSuffix)).map
    fun sitemapUrl => ⟨sitemapUrl⟩

/-! ### Sitemap Extractor

`extractLinksFromSitemap` wraps its whole body in a try/catch that
turns a fetch failure into `[]`, and wraps the structured (xml2js)
processing in an inner try whose catch runs the regex fallback.  A
`TypeError` thrown by `sitemap.loc[0]` or `urlObj.loc[0]` on a missing
`<loc>` is raised inside that inner try, so it lands in the same
fallback — with whatever `links` had accumulated before the throw
still in the array.  The `Bool`s returned below record "the inner try
threw here". -/

/-- `result.sitemapindex.sitemap.map(s => s.loc[0])`: `none` when some
nested entry has no `<loc>` (the `.map` throws before any recursion
happens). -/
def mapLoc : List (Option String) → Option (List String)
  | [] => some []
  | none :: _ => none
  | some loc :: rest => (mapLoc rest).map fun locs => loc :: locs

/-- The `urlset` loop: one `PageLink` per entry (optional fields copied
when present), stopping with `true` at the first entry whose `loc` is
absent (the loop throws there, keeping the links already pushed). -/
def urlsetLinks (sitemapUrl : String) : List UrlEntry → List PageLink × Bool
  | [] => ([], false)
  | e :: rest =>
    match e.loc with
    | none => ([], true)
    | some loc =>
      let r := urlsetLinks sitemapUrl rest
      (⟨loc, none, some sitemapUrl, e.lastmod, e.priority, e.changefreq⟩ :: r.1, r.2)

/-- The lazy group of one match of `/<loc>(.*?)<\/loc>/`: reading from
just after `<loc>`, the shortest run of non-line-terminator characters
followed by `</loc>`, and the characters after that `</loc>`.  `none`
when no such close tag is reachable (the match attempt fails). -/
def takeToLocClose : List Char → Option (List Char × List Char)
  | [] => none
  | c :: cs =>
    if List.isPrefixOf "</loc>".data (c :: cs) then some ([], (c :: cs).drop 6)
    else if isLineTerm c then none
    else (takeToLocClose cs).map fun r => (c :: r.1, r.2)

/-- The global scan of `/<loc>(.*?)<\/loc>/g`: leftmost matches, each
search resuming after the previous match.  The fuel only totalizes the
jump past a match; every consumed match shortens the input, so
`length + 1` fuel never runs out. -/
def locScanGo : Nat → List Char → List (List Char)
  | 0, _ => []
  | _ + 1, [] => []
  | fuel + 1, c :: cs =>
    if List.isPrefixOf "<loc>".data (c :: cs) then
      match takeToLocClose ((c :: cs).drop 5) with
      | some r => r.1 :: locScanGo fuel r.2
      | none => locScanGo fuel cs
    else locScanGo fuel cs

/-- All capture groups of `body.match(/<loc>(.*?)<\/loc>/g)`. -/
def locScan (l : List Char) : List (List Char) := locScanGo (l.length + 1) l

/-- `match.replace(/<loc>|<\/loc>/g, "")`: delete every occurrence of
either tag, scanning left to right (fuel as in `locScanGo`). -/
def stripLocTagsGo : Nat → List Char → List Char
  | 0, l => l
  | _ + 1, [] => []
  | fuel + 1, c :: cs =>
    if List.isPrefixOf "<loc>".data (c :: cs) then stripLocTagsGo fuel (cs.drop 4)
    else if List.isPrefixOf "</loc>".data (c :: cs) then stripLocTagsGo fuel (cs.drop 5)
    else c :: stripLocTagsGo fuel cs

def stripLocTags (l : List Char) : List Char := stripLocTagsGo (l.length + 1) l

/-- The regex fallback of the inner catch: one metadata-free entry per
`<loc>...</loc>` match of the raw body, the matched text stripped of
tags and trimmed. -/
def locRegexLinks (body sitemapUrl : String) : List PageLink :=
  (locScan body.data).map fun captured =>
    ⟨String.mk (trimL (stripLocTags ("<loc>".data ++ captured ++ "</loc>".data))),
     none, some sitemapUrl, none, none, none⟩

/-- `extractLinksFromSitemap`, totalized by fuel (the source recurses
unboundedly into nested sitemap indexes).  Fetch failure yields `[]`;
an XML parse failure, or a `TypeError` thrown inside the inner try,
falls back to the regex scan appended to the links accumulated before
the throw; a sitemap index recurses into each nested URL in order; a
news sitemap and any unrecognized root yield `[]`. -/
def extractLinksFromSitemap : Nat → Env → String → List PageLink
  | 0, _, _ => []
  | fuel + 1, env, sitemapUrl =>
    match env.get sitemapUrl with
    | none => []
    | some body =>
      match env.parseXml body with
      | none => locRegexLinks body sitemapUrl
      | some (XmlDoc.sitemapindex sitemaps) =>
        match mapLoc sitemaps with
        | none => locRegexLinks body sitemapUrl
        | some nestedUrls =>
          (nestedUrls.map fun nestedUrl => extractLinksFromSitemap fuel env nestedUrl).flatten
      | some (XmlDoc.urlset urls) =>
        let r := urlsetLinks sitemapUrl urls
        if r.2 then r.1 ++ locRegexLinks body sitemapUrl else r.1
      | some XmlDoc.news => []
      | some XmlDoc.other => []

/-! ### Page Scraper -/

/-- `extractLinksFromPage`: fetch the page, walk every anchor in
document order; skip an anchor whose `href` is missing or `""` (both
falsy) or starts with `#` or `javascript:`; otherwise emit the href
resolved against the page URL, with the anchor's trimmed text (`""`
becoming `undefined`) and the page as source.  Fetch failure yields
`[]`. -/
def extractLinksFromPage (env : Env) (pageUrl : String) : List PageLink :=
  match env.get pageUrl with
  | none => []
  | some body =>
    (env.anchors body).filterMap fun a =>
      match a.href with
      | none => none
      | some href =>
        if href = "" then none
        else if List.isPrefixOf "#".data href.data
            || List.isPrefixOf "javascript:".data href.data then none
        else
          let text := String.mk (trimL a.text.data)
          some ⟨env.resolve pageUrl href, if text = "" then none else some text,
                some pageUrl, none, none, none⟩

/-! ### Orchestration -/

/-- The dedup loop of `extractAllLinks` (`Map` keyed by `url`, first
writer wins, values read back in insertion order), with the keys seen
so far made explicit. -/
def dedupLinksGo (seen : List String) : List PageLink → List PageLink
  | [] => []
  | link :: rest =>
    if link.url ∈ seen then dedupLinksGo seen rest
    else link :: dedupLinksGo (link.url :: seen) rest

/-- The aggregation step of `extractAllLinks`: keep the first
occurrence of every `url`. -/
def dedupLinks (links : List PageLink) : List PageLink := dedupLinksGo [] links

/-- `extractAllLinks`: locate sitemaps; extract from each in order when
at least one was found, otherwise scrape the homepage; deduplicate. -/
def extractAllLinks (fuel : Nat) (env : Env) (websiteUrl : String) : List PageLink :=
  let sitemapPaths := getAllSitemapPaths env websiteUrl
  let allLinks :=
    if sitemapPaths.length > 0 then
      sitemapPaths.flatMap fun sitemap => extractLinksFromSitemap fuel env sitemap.url
    else extractLinksFromPage env websiteUrl
  dedupLinks allLinks

/-! ### Statement-side definitions

Definitions used only to state the claims: the spec's wording of the
aggregation and of the per-anchor rule, the "directive signal" of the
locator's strategy 1, first-occurrence positions, and the concrete
environments the witnesses and counterexamples run in. -/

/-- The position of the first occurrence of `u` in `l` (the list's
length when absent). -/
def firstIdx (u : String) (l : List String) : Nat := l.findIdx fun v => v == u

/-- The candidate URLs of the Locator, in discovery order, restricted
as the code restricts them (`.xml` suffix after lowercasing). -/
def locatorXmlCandidates (env : Env) (websiteUrl : String) : List String :=
  ((locatorCandidates env websiteUrl).map fun s => s.url).filter xmlSuffix

/-- The URLs `getAllSitemapPaths` returns, in order. -/
def locatedUrls (env : Env) (websiteUrl : String) : List String :=
  (getAllSitemapPaths env websiteUrl).map fun s => s.url

/-- The spec's "directive signal" of locator strategy 1: robots.txt
matches `/Sitemap: /i` (the `hasSitemapDirective` test of the source),
`false` on fetch failure. -/
def robotsDirective (env : Env) (websiteUrl : String) : Bool :=
  match env.get (env.resolve websiteUrl ROBOTS_TXT) with
  | none => false
  | some body => containsCI body "Sitemap: "

/-- The Locator aggregation as the spec words it: deduplicate the
concatenated candidates by exact URL string equality and restrict to
URLs whose lowercased form ends in `.xml`. -/
def locatorAggregateSpec (env : Env) (websiteUrl : String) : List SitemapPath :=
  ((dedupFirst ((locatorCandidates env websiteUrl).map fun s => s.url)).filter xmlSuffix).map
    fun sitemapUrl => ⟨sitemapUrl⟩

/-- The per-anchor rule as the spec words it: an anchor with an empty
(or missing) href, a `#...` href or a `javascript:...` href
contributes nothing; any other anchor contributes exactly one entry
with the href resolved against the page URL, the page as source, and
the trimmed text (omitted when trimming leaves it empty). -/
def anchorEntrySpec (env : Env) (pageUrl : String) (a : Anchor) : Option PageLink :=
  match a.href with
  | none => none
  | some href =>
    if href = "" || List.isPrefixOf "#".data href.data
        || List.isPrefixOf "javascript:".data href.data then none
    else
      some ⟨env.resolve pageUrl href,
            if String.mk (trimL a.text.data) = "" then none
            else some (String.mk (trimL a.text.data)),
            some pageUrl, none, none, none⟩

/-- A urlset body whose middle `<url>` entry has no `<loc>` (the C3
scenario). -/
def bodyMissingLoc : String :=
  "<urlset><url><loc>https://a.com/1</loc></url><url><lastmod>2024</lastmod></url><url><loc>https://a.com/3</loc></url></urlset>"

/-- A world holding one sitemap whose parse is a urlset with a
loc-less middle entry. -/
def envMissingLoc : Env where
  get := fun u => if u = "https://s.com/sm.xml" then some bodyMissingLoc else none
  headOk := fun _ => false
  parseXml := fun b =>
    if b = bodyMissingLoc then
      some (XmlDoc.urlset
        [⟨some "https://a.com/1", none, none, none⟩,
         ⟨none, some "2024", none, none⟩,
         ⟨some "https://a.com/3", none, none, none⟩])
    else none
  anchors := fun _ => []
  sitemapLinkHref := fun _ => none
  resolve := fun base path => base ++ path

/-- A world holding one sitemap whose body is not parseable XML but
contains a `<loc>` pair (the spec's malformed-XML fallback
scenario). -/
def envParseFail : Env where
  get := fun u => if u = "https://s.com/bad.xml" then some "%%% <loc>https://a.com/2</loc> %%%" else none
  headOk := fun _ => false
  parseXml := fun _ => none
  anchors := fun _ => []
  sitemapLinkHref := fun _ => none
  resolve := fun base path => base ++ path

/-- A world holding one sitemap index over two nested sitemaps, the
first unreachable, the second a one-entry urlset. -/
def envIndexBranch : Env where
  get := fun u =>
    if u = "https://s.com/index.xml" then some "INDEX"
    else if u = "https://s.com/s2.xml" then some "LEAF"
    else none
  headOk := fun _ => false
  parseXml := fun b =>
    if b = "INDEX" then
      some (XmlDoc.sitemapindex [some "https://s.com/s1.xml", some "https://s.com/s2.xml"])
    else if b = "LEAF" then
      some (XmlDoc.urlset [⟨some "https://a.com/leaf", none, none, none⟩])
    else none
  anchors := fun _ => []
  sitemapLinkHref := fun _ => none
  resolve := fun base path => base ++ path

/-- A world holding the spec's urlset scenario body. -/
def envUrlset : Env where
  get := fun u => if u = "https://s.com/sm.xml" then some "URLSET" else none
  headOk := fun _ => false
  parseXml := fun b =>
    if b = "URLSET" then
      some (XmlDoc.urlset [⟨some "https://a.com/1", some "2024-01-01", none, none⟩])
    else none
  anchors := fun _ => []
  sitemapLinkHref := fun _ => none
  resolve := fun base path => base ++ path

/-- A world holding one page with the spec's three scenario anchors
plus an href-less one. -/
def envPage : Env where
  get := fun u => if u = "https://a.com/x" then some "PAGE" else none
  headOk := fun _ => false
  parseXml := fun _ => none
  anchors := fun b =>
    if b = "PAGE" then
      [⟨some "#section", "frag"⟩, ⟨some "javascript:void(0)", "js"⟩,
       ⟨none, "noref"⟩, ⟨some "", "empty"⟩, ⟨some "/about", " About "⟩]
    else []
  sitemapLinkHref := fun _ => none
  resolve := fun base path => base ++ path

/-! ## Lemmas about the insertion-ordered deduplication of URL strings -/

theorem mem_dedupFirstGo (u : String) : ∀ (l seen : List String),
    u ∈ dedupFirstGo seen l ↔ u ∈ l ∧ u ∉ seen := by
  intro l
  induction l with
  | nil => intro seen; simp [dedupFirstGo]
  | cons x rest ih =>
    intro seen
    by_cases hx : x ∈ seen
    · simp only [dedupFirstGo, if_pos hx, ih, List.mem_cons]
      constructor
      · rintro ⟨hm, hs⟩
        exact ⟨Or.inr hm, hs⟩
      · rintro ⟨rfl | hm, hs⟩
        · exact absurd hx hs
        · exact ⟨hm, hs⟩
    · simp only [dedupFirstGo, if_neg hx, List.mem_cons, ih]
      constructor
      · rintro (rfl | ⟨hm, hs⟩)
        · exact ⟨Or.inl rfl, hx⟩
        · exact ⟨Or.inr hm, fun hu => hs (Or.inr hu)⟩
      · rintro ⟨rfl | hm, hs⟩
        · exact Or.inl rfl
        · by_cases hux : u = x
          · exact Or.inl hux
          · exact Or.inr ⟨hm, fun hc => hc.elim hux hs⟩

theorem nodup_dedupFirstGo : ∀ (l seen : List String), (dedupFirstGo seen l).Nodup := by
  intro l
  induction l with
  | nil => intro seen; simp [dedupFirstGo]
  | cons x rest ih =>
    intro seen
    by_cases hx : x ∈ seen
    · simpa only [dedupFirstGo, if_pos hx] using ih seen
    · simp only [dedupFirstGo, if_neg hx, List.nodup_cons]
      refine ⟨fun hc => ?_, ih _⟩
      exact ((mem_dedupFirstGo x rest _).mp hc).2 (List.mem_cons_self _ _)

theorem sublist_dedupFirstGo : ∀ (l seen : List String), (dedupFirstGo seen l).Sublist l := by
  intro l
  induction l with
  | nil => intro seen; simp [dedupFirstGo]
  | cons x rest ih =>
    intro seen
    by_cases hx : x ∈ seen
    · simpa only [dedupFirstGo, if_pos hx] using (ih seen).cons x
    · simpa only [dedupFirstGo, if_neg hx] using (ih (x :: seen)).cons₂ x

theorem dedupFirstGo_congr : ∀ (l seen₁ seen₂ : List String),
    (∀ u, u ∈ seen₁ ↔ u ∈ seen₂) → dedupFirstGo seen₁ l = dedupFirstGo seen₂ l := by
  intro l
  induction l with
  | nil => intro seen₁ seen₂ _; rfl
  | cons x rest ih =>
    intro seen₁ seen₂ h
    by_cases hx : x ∈ seen₁
    · rw [dedupFirstGo, dedupFirstGo, if_pos hx, if_pos ((h x).mp hx), ih _ _ h]
    · rw [dedupFirstGo, dedupFirstGo, if_neg hx, if_neg (fun hc => hx ((h x).mpr hc))]
      refine congrArg (x :: ·) (ih _ _ fun u => ?_)
      simp only [List.mem_cons, h u]

theorem dedupFirstGo_cons_notmem : ∀ (l : List String) (u : String) (seen : List String),
    u ∉ l → dedupFirstGo (u :: seen) l = dedupFirstGo seen l := by
  intro l
  induction l with
  | nil => intro u seen _; rfl
  | cons x rest ih =>
    intro u seen hu
    have hxu : ¬x = u := fun hc => hu (hc ▸ List.mem_cons_self x rest)
    have hur : u ∉ rest := fun hc => hu (List.mem_cons_of_mem _ hc)
    by_cases hx : x ∈ seen
    · have hx' : x ∈ u :: seen := List.mem_cons_of_mem _ hx
      rw [dedupFirstGo, dedupFirstGo, if_pos hx, if_pos hx', ih _ _ hur]
    · have hx' : x ∉ u :: seen := fun hc => (List.mem_cons.mp hc).elim hxu hx
      rw [dedupFirstGo, dedupFirstGo, if_neg hx, if_neg hx']
      refine congrArg (x :: ·) ?_
      rw [dedupFirstGo_congr rest (x :: u :: seen) (u :: x :: seen)
            (by intro v; simp only [List.mem_cons]; tauto),
          ih _ _ hur]

theorem dedupFirstGo_filter (p : String → Bool) : ∀ (l seen : List String),
    dedupFirstGo seen (l.filter p) = (dedupFirstGo seen l).filter p := by
  intro l
  induction l with
  | nil => intro seen; rfl
  | cons x rest ih =>
    intro seen
    by_cases hp : p x
    · by_cases hx : x ∈ seen
      · rw [List.filter_cons_of_pos hp, dedupFirstGo, dedupFirstGo, if_pos hx, if_pos hx, ih]
      · rw [List.filter_cons_of_pos hp, dedupFirstGo, dedupFirstGo, if_neg hx, if_neg hx,
            List.filter_cons_of_pos hp, ih]
    · rw [List.filter_cons_of_neg hp, dedupFirstGo]
      by_cases hx : x ∈ seen
      · rw [if_pos hx, ih]
      · rw [if_neg hx, List.filter_cons_of_neg hp, ← ih,
            dedupFirstGo_cons_notmem _ _ _ (fun hc => hp (List.of_mem_filter hc))]

theorem firstIdx_cons_self (u : String) (l : List String) : firstIdx u (u :: l) = 0 := by
  simp [firstIdx, List.findIdx_cons]

theorem firstIdx_cons_ne {u v : String} (l : List String) (h : ¬v = u) :
    firstIdx u (v :: l) = firstIdx u l + 1 := by
  simp only [firstIdx, List.findIdx_cons, beq_eq_false_iff_ne, cond_eq_if, beq_iff_eq, if_neg h]

theorem firstIdx_dedupFirstGo_mono (u v : String) : ∀ (l seen : List String),
    u ∈ l → v ∈ l → u ∉ seen → v ∉ seen →
    (firstIdx u l ≤ firstIdx v l ↔
      firstIdx u (dedupFirstGo seen l) ≤ firstIdx v (dedupFirstGo seen l)) := by
  intro l
  induction l with
  | nil => intro seen hu; exact absurd hu (List.not_mem_nil u)
  | cons x rest ih =>
    intro seen hu hv hus hvs
    by_cases hx : x ∈ seen
    · have hxu : ¬x = u := fun hc => hus (hc ▸ hx)
      have hxv : ¬x = v := fun hc => hvs (hc ▸ hx)
      have hur : u ∈ rest := (List.mem_cons.mp hu).elim (fun hc => absurd hc.symm hxu) id
      have hvr : v ∈ rest := (List.mem_cons.mp hv).elim (fun hc => absurd hc.symm hxv) id
      rw [dedupFirstGo, if_pos hx, firstIdx_cons_ne _ hxu, firstIdx_cons_ne _ hxv,
          Nat.add_le_add_iff_right]
      exact ih seen hur hvr hus hvs
    · rw [dedupFirstGo, if_neg hx]
      by_cases hxu : x = u
      · subst hxu
        rw [firstIdx_cons_self, firstIdx_cons_self]
        simp [Nat.zero_le]
      · have hur : u ∈ rest := (List.mem_cons.mp hu).elim (fun hc => absurd hc.symm hxu) id
        by_cases hxv : x = v
        · subst hxv
          rw [firstIdx_cons_self, firstIdx_cons_self, firstIdx_cons_ne _ hxu,
              firstIdx_cons_ne _ hxu]
          omega
        · have hvr : v ∈ rest := (List.mem_cons.mp hv).elim (fun hc => absurd hc.symm hxv) id
          rw [firstIdx_cons_ne _ hxu, firstIdx_cons_ne _ hxv, firstIdx_cons_ne _ hxu,
              firstIdx_cons_ne _ hxv, Nat.add_le_add_iff_right, Nat.add_le_add_iff_right]
          exact ih (x :: seen) hur hvr
            (fun hc => (List.mem_cons.mp hc).elim (fun h => hxu h.symm) hus)
            (fun hc => (List.mem_cons.mp hc).elim (fun h => hxv h.symm) hvs)

theorem locatedUrls_eq (env : Env) (websiteUrl : String) :
    locatedUrls env websiteUrl = dedupFirst (locatorXmlCandidates env websiteUrl) := by
  simp only [locatedUrls, getAllSitemapPaths, locatorXmlCandidates, List.map_map]
  exact List.map_id _

/-- C6.  For every website URL, the set returned by `getAllSitemapPaths`
equals the concatenation of the robots.txt-extracted, standard-path,
HTML-header and common-path candidates (in that order), deduplicated by
exact URL string equality and restricted to URLs whose lowercased form
ends in `.xml`; no URL failing that suffix test ever appears in the
result. -/
theorem getAllSitemapPaths_aggregation (env : Env) (websiteUrl : String) :
    getAllSitemapPaths env websiteUrl = locatorAggregateSpec env websiteUrl
    ∧ ∀ s : SitemapPath, s ∈ getAllSitemapPaths env websiteUrl → xmlSuffix s.url = true := by
  constructor
  · rw [getAllSitemapPaths, locatorAggregateSpec, dedupFirst, dedupFirst,
        dedupFirstGo_filter xmlSuffix]
  · intro s hs
    rw [getAllSitemapPaths] at hs
    rcases List.mem_map.mp hs with ⟨u, hu, rfl⟩
    have := ((mem_dedupFirstGo u _ _).mp hu).1
    exact (List.mem_filter.mp this).2

/-- C10.  The sequence returned by `getAllSitemapPaths` preserves
discovery order: it is a duplicate-free, order-preserving sublist of
the xml-filtered concatenation (robots.txt directives in line order,
then the standard-path hit, then the HTML-header hit, then common-path
hits in the fixed probe order) containing exactly its URLs, and the
relative order of any two returned URLs agrees with the order of their
first occurrences in that concatenation. -/
theorem getAllSitemapPaths_order (env : Env) (websiteUrl : String) :
    (locatedUrls env websiteUrl).Nodup
    ∧ (locatedUrls env websiteUrl).Sublist (locatorXmlCandidates env websiteUrl)
    ∧ (∀ u, u ∈ locatedUrls env websiteUrl ↔ u ∈ locatorXmlCandidates env websiteUrl)
    ∧ ∀ u v, u ∈ locatorXmlCandidates env websiteUrl →
        v ∈ locatorXmlCandidates env websiteUrl →
        (firstIdx u (locatorXmlCandidates env websiteUrl)
            ≤ firstIdx v (locatorXmlCandidates env websiteUrl)
          ↔ firstIdx u (locatedUrls env websiteUrl)
            ≤ firstIdx v (locatedUrls env websiteUrl)) := by
  rw [locatedUrls_eq]
  refine ⟨nodup_dedupFirstGo _ _, sublist_dedupFirstGo _ _, fun u => ?_, fun u v hu hv => ?_⟩
  · rw [dedupFirst, mem_dedupFirstGo]
    simp
  · exact firstIdx_dedupFirstGo_mono u v _ [] hu hv (List.not_mem_nil u) (List.not_mem_nil v)

/-! ## Lemmas about the first-writer-wins deduplication of links -/

theorem dedupLinksGo_mem_of {e : PageLink} : ∀ (l : List PageLink) (seen : List String),
    e ∈ dedupLinksGo seen l → e ∈ l ∧ e.url ∉ seen := by
  intro l
  induction l with
  | nil => intro seen h; exact absurd h (List.not_mem_nil e)
  | cons x rest ih =>
    intro seen h
    by_cases hx : x.url ∈ seen
    · rw [dedupLinksGo, if_pos hx] at h
      exact ⟨List.mem_cons_of_mem _ (ih _ h).1, (ih _ h).2⟩
    · rw [dedupLinksGo, if_neg hx] at h
      rcases List.mem_cons.mp h with rfl | h
      · exact ⟨List.mem_cons_self _ _, hx⟩
      · refine ⟨List.mem_cons_of_mem _ (ih _ h).1, fun hc => (ih _ h).2 (List.mem_cons_of_mem _ hc)⟩

theorem dedupLinksGo_pairwise : ∀ (l : List PageLink) (seen : List String),
    List.Pairwise (fun a b => a.url ≠ b.url) (dedupLinksGo seen l) := by
  intro l
  induction l with
  | nil => intro seen; exact List.Pairwise.nil
  | cons x rest ih =>
    intro seen
    by_cases hx : x.url ∈ seen
    · simpa only [dedupLinksGo, if_pos hx] using ih seen
    · rw [dedupLinksGo, if_neg hx]
      refine List.pairwise_cons.mpr ⟨fun y hy hc => ?_, ih _⟩
      exact (dedupLinksGo_mem_of rest _ hy).2 (hc ▸ List.mem_cons_self _ _)

theorem dedupLinksGo_find? (e : PageLink) : ∀ (l : List PageLink) (seen : List String),
    e ∈ dedupLinksGo seen l ↔
      e.url ∉ seen ∧ l.find? (fun x => x.url == e.url) = some e := by
  intro l
  induction l with
  | nil => intro seen; simp [dedupLinksGo]
  | cons x rest ih =>
    intro seen
    by_cases hx : x.url ∈ seen
    · rw [dedupLinksGo, if_pos hx]
      by_cases hes : e.url ∈ seen
      · constructor
        · intro h; exact absurd hes (dedupLinksGo_mem_of rest seen h).2
        · rintro ⟨hc, _⟩; exact absurd hes hc
      · rw [@List.find?_cons_of_neg _ (fun y => y.url == e.url) x rest
            (fun hc => hes (beq_iff_eq.mp hc ▸ hx)), ih]
    · rw [dedupLinksGo, if_neg hx]
      by_cases hxe : x.url = e.url
      · rw [@List.find?_cons_of_pos _ (fun y => y.url == e.url) x rest (beq_iff_eq.mpr hxe)]
        constructor
        · intro h
          rcases List.mem_cons.mp h with rfl | h
          · exact ⟨hx, rfl⟩
          · exact absurd (List.mem_cons.mpr (Or.inl hxe.symm))
              (dedupLinksGo_mem_of rest _ h).2
        · rintro ⟨_, he⟩
          exact (Option.some.inj he) ▸ List.mem_cons_self x _
      · rw [@List.find?_cons_of_neg _ (fun y => y.url == e.url) x rest
            (fun hc => hxe (beq_iff_eq.mp hc))]
        constructor
        · intro h
          rcases List.mem_cons.mp h with rfl | h
          · exact absurd rfl hxe
          · have h' := (ih (x.url :: seen)).mp h
            exact ⟨fun hc => h'.1 (List.mem_cons_of_mem _ hc), h'.2⟩
        · rintro ⟨hes, he⟩
          refine List.mem_cons_of_mem _ ((ih (x.url :: seen)).mpr ⟨?_, he⟩)
          intro hc
          rcases List.mem_cons.mp hc with hc' | hc'
          · exact hxe hc'.symm
          · exact hes hc'

theorem dedupLinksGo_congr : ∀ (l : List PageLink) (seen₁ seen₂ : List String),
    (∀ u, u ∈ seen₁ ↔ u ∈ seen₂) → dedupLinksGo seen₁ l = dedupLinksGo seen₂ l := by
  intro l
  induction l with
  | nil => intro seen₁ seen₂ _; rfl
  | cons x rest ih =>
    intro seen₁ seen₂ h
    by_cases hx : x.url ∈ seen₁
    · rw [dedupLinksGo, dedupLinksGo, if_pos hx, if_pos ((h x.url).mp hx), ih _ _ h]
    · rw [dedupLinksGo, dedupLinksGo, if_neg hx, if_neg (fun hc => hx ((h x.url).mpr hc))]
      refine congrArg (x :: ·) (ih _ _ fun u => ?_)
      simp only [List.mem_cons, h u]

theorem dedupLinksGo_append : ∀ (l₁ l₂ : List PageLink) (seen : List String),
    dedupLinksGo seen (l₁ ++ l₂)
      = dedupLinksGo seen l₁ ++ dedupLinksGo ((l₁.map fun x => x.url) ++ seen) l₂ := by
  intro l₁
  induction l₁ with
  | nil => intro l₂ seen; rfl
  | cons x rest ih =>
    intro l₂ seen
    by_cases hx : x.url ∈ seen
    · rw [List.cons_append, dedupLinksGo, dedupLinksGo, if_pos hx, if_pos hx, ih]
      refine congrArg (dedupLinksGo seen rest ++ ·) (dedupLinksGo_congr l₂ _ _ fun u => ?_)
      simp only [List.map_cons, List.cons_append, List.mem_cons, List.mem_append]
      constructor
      · intro hm; exact Or.inr hm
      · rintro (rfl | hm)
        · exact Or.inr hx
        · exact hm
    · rw [List.cons_append, dedupLinksGo, dedupLinksGo, if_neg hx, if_neg hx, ih,
          List.cons_append]
      refine congrArg (fun t => x :: (dedupLinksGo (x.url :: seen) rest ++ t))
        (dedupLinksGo_congr l₂ _ _ fun u => ?_)
      simp only [List.map_cons, List.cons_append, List.mem_cons, List.mem_append]
      tauto

theorem dedupLinksGo_eq_nil : ∀ (l : List PageLink) (seen : List String),
    (∀ x ∈ l, x.url ∈ seen) → dedupLinksGo seen l = [] := by
  intro l
  induction l with
  | nil => intro seen _; rfl
  | cons x rest ih =>
    intro seen h
    rw [dedupLinksGo, if_pos (h x (List.mem_cons_self _ _))]
    exact ih seen fun y hy => h y (List.mem_cons_of_mem _ hy)

theorem dedupLinksGo_eq_self : ∀ (l : List PageLink) (seen : List String),
    List.Pairwise (fun a b => a.url ≠ b.url) l → (∀ x ∈ l, x.url ∉ seen) →
    dedupLinksGo seen l = l := by
  intro l
  induction l with
  | nil => intro seen _ _; rfl
  | cons x rest ih =>
    intro seen hp h
    rw [dedupLinksGo, if_neg (h x (List.mem_cons_self _ _))]
    refine congrArg (x :: ·) (ih _ (List.pairwise_cons.mp hp).2 fun y hy hc => ?_)
    rcases List.mem_cons.mp hc with hc' | hc'
    · exact (List.pairwise_cons.mp hp).1 y hy hc'.symm
    · exact h y (List.mem_cons_of_mem _ hy) hc'

/-- C1.  The deduplicated result of `extractAllLinks` contains no two
entries with the same url (case-sensitive exact string equality), and
an entry belongs to it exactly when it is the first entry of the input
carrying its url — so for two input entries sharing a url, the first
one is retained with all of its metadata. -/
theorem dedupLinks_pairwise_first_wins (links : List PageLink) :
    List.Pairwise (fun a b => a.url ≠ b.url) (dedupLinks links)
    ∧ ∀ e : PageLink,
        e ∈ dedupLinks links ↔ links.find? (fun x => x.url == e.url) = some e := by
  refine ⟨dedupLinksGo_pairwise links [], fun e => ?_⟩
  rw [dedupLinks, dedupLinksGo_find? e links []]
  simp

/-- C9.  The deduplication step of `extractAllLinks` is idempotent:
deduplicating `L ++ L` yields the same sequence as deduplicating `L`,
and deduplicating an already-deduplicated list leaves it unchanged. -/
theorem dedupLinks_idempotent (links : List PageLink) :
    dedupLinks (links ++ links) = dedupLinks links
    ∧ dedupLinks (dedupLinks links) = dedupLinks links := by
  constructor
  · rw [dedupLinks, dedupLinksGo_append links links []]
    rw [dedupLinksGo_eq_nil links _ fun x hx =>
      List.mem_append.mpr (Or.inl (List.mem_map.mpr ⟨x, hx, rfl⟩)), List.append_nil]
    rfl
  · rw [dedupLinks, dedupLinks,
        dedupLinksGo_eq_self _ [] (dedupLinksGo_pairwise links []) (fun x _ hc => (List.not_mem_nil _ hc))]

/-- C2.  `extractAllLinks` is exactly the deduplicated scraper output
when the Locator finds nothing, and exactly the deduplicated
concatenation of the per-sitemap extractions (in the order the Locator
returned them) when it finds at least one reference; the two sources
are never mixed. -/
theorem extractAllLinks_orchestration (fuel : Nat) (env : Env) (websiteUrl : String) :
    extractAllLinks fuel env websiteUrl
      = dedupLinks
          (if getAllSitemapPaths env websiteUrl = [] then extractLinksFromPage env websiteUrl
           else (getAllSitemapPaths env websiteUrl).flatMap fun s =>
             extractLinksFromSitemap fuel env s.url) := by
  cases h : getAllSitemapPaths env websiteUrl with
  | nil => simp [extractAllLinks, h]
  | cons a t => simp [extractAllLinks, h]

/-! ## Lemmas about the robots.txt directive matching -/

theorem splitOnNl_head_prefix : ∀ (l h : List Char) (t : List (List Char)),
    splitOnNl l = h :: t → h <+: l := by
  intro l
  induction l with
  | nil =>
    intro h t he
    rw [splitOnNl] at he
    cases he
    exact List.nil_prefix
  | cons c cs ih =>
    intro h t he
    rw [splitOnNl] at he
    by_cases hc : c = '\n'
    · rw [if_pos hc] at he
      cases he
      exact List.nil_prefix
    · rw [if_neg hc] at he
      cases h' : splitOnNl cs with
      | nil => rw [h'] at he; cases he; exact List.cons_prefix_cons.mpr ⟨rfl, List.nil_prefix⟩
      | cons l' ls =>
        rw [h'] at he
        injection he with h1 h2
        rw [← h1]
        exact List.cons_prefix_cons.mpr ⟨rfl, ih l' ls h'⟩

theorem splitOnNl_isInfixOfInput : ∀ (l p : List Char), p ∈ splitOnNl l → p <:+: l := by
  intro l
  induction l with
  | nil =>
    intro p hp
    rw [splitOnNl] at hp
    rcases List.mem_singleton.mp hp with rfl
    exact List.infix_refl []
  | cons c cs ih =>
    intro p hp
    rw [splitOnNl] at hp
    by_cases hc : c = '\n'
    · rw [if_pos hc] at hp
      rcases List.mem_cons.mp hp with rfl | hp
      · exact List.nil_infix
      · exact List.infix_cons (ih p hp)
    · rw [if_neg hc] at hp
      cases h' : splitOnNl cs with
      | nil =>
        rw [h'] at hp
        rcases List.mem_singleton.mp hp with rfl
        exact (List.cons_prefix_cons.mpr ⟨rfl, List.nil_prefix⟩).isInfix
      | cons l' ls =>
        rw [h'] at hp
        rcases List.mem_cons.mp hp with rfl | hp
        · exact (List.cons_prefix_cons.mpr ⟨rfl, splitOnNl_head_prefix cs l' ls h'⟩).isInfix
        · exact List.infix_cons (ih p (h' ▸ List.mem_cons_of_mem l' hp))

theorem matchDirectiveLine_isInfixOfLine : ∀ (line cap : List Char),
    matchDirectiveLine line = some cap → "sitemap: ".data <:+: lowerL line := by
  intro line
  induction line with
  | nil => intro cap h; cases h
  | cons c cs ih =>
    intro cap h
    rw [matchDirectiveLine] at h
    by_cases hp : List.isPrefixOf "sitemap: ".data (lowerL (c :: cs)) = true
    · exact (List.isPrefixOf_iff_prefix.mp hp).isInfix
    · rw [if_neg hp] at h
      have : lowerL (c :: cs) = Char.toLower c :: lowerL cs := rfl
      rw [this]
      exact List.infix_cons (ih cap h)

theorem containsL_iff : ∀ (l pat : List Char), containsL pat l = true ↔ pat <:+: l := by
  intro l
  induction l with
  | nil =>
    intro pat
    rw [containsL, List.isPrefixOf_iff_prefix, List.prefix_nil, List.infix_nil]
  | cons c cs ih =>
    intro pat
    rw [containsL, Bool.or_eq_true, List.isPrefixOf_iff_prefix, ih, List.infix_cons_iff]

theorem robots_nonempty_directive (env : Env) (websiteUrl : String) (body : String)
    (hget : env.get (env.resolve websiteUrl ROBOTS_TXT) = some body)
    (hne : extractSitemapsFromRobotsTxt env websiteUrl ≠ []) :
    containsCI body "Sitemap: " = true := by
  rw [extractSitemapsFromRobotsTxt, hget] at hne
  have : ¬∀ line ∈ splitOnNl body.data,
      (matchDirectiveLine line).map (fun captured => (⟨String.mk (trimL captured)⟩ : SitemapPath)) = none := by
    intro hall
    exact hne (List.filterMap_eq_nil_iff.mpr hall)
  push_neg at this
  rcases this with ⟨line, hline, hnm⟩
  cases hm : matchDirectiveLine line with
  | none => rw [hm] at hnm; exact absurd rfl hnm
  | some cap =>
    have h1 : "sitemap: ".data <:+: lowerL line := matchDirectiveLine_isInfixOfLine line cap hm
    have h2 : lowerL line <:+: lowerL body.data :=
      List.IsInfix.map Char.toLower (splitOnNl_isInfixOfInput body.data line hline)
    have h3 : "sitemap: ".data <:+: lowerL body.data := h1.trans h2
    have h4 : lowerL "Sitemap: ".data = "sitemap: ".data := by decide
    rw [containsCI, h4]
    exact (containsL_iff _ _).mpr h3

/-- C4.  The common-path probe of `getAllSitemapPaths` runs exactly
when the robots.txt directive signal is false or the robots.txt
extraction yields zero entries; and when robots.txt yields directive
entries, the probe is skipped and the located set is the directive
URLs plus the standard-path and HTML-header hits (aggregated as
always), with the twelve common paths contributing nothing. -/
theorem getAllSitemapPaths_common_probe_guard (env : Env) (websiteUrl : String) :
    shouldCheckCommonPaths env websiteUrl
      = (!robotsDirective env websiteUrl
          || (extractSitemapsFromRobotsTxt env websiteUrl).length == 0)
    ∧ (extractSitemapsFromRobotsTxt env websiteUrl ≠ [] →
        shouldCheckCommonPaths env websiteUrl = false
        ∧ getAllSitemapPaths env websiteUrl
            = (dedupFirst (((extractSitemapsFromRobotsTxt env websiteUrl
                  ++ (extractSitemapUrl env websiteUrl).toList
                  ++ (findSitemapInHtmlHeader env websiteUrl).toList).map fun s => s.url).filter
                    xmlSuffix)).map fun sitemapUrl => ⟨sitemapUrl⟩) := by
  have key : shouldCheckCommonPaths env websiteUrl
      = (!robotsDirective env websiteUrl
          || (extractSitemapsFromRobotsTxt env websiteUrl).length == 0) := by
    cases hget : env.get (env.resolve websiteUrl ROBOTS_TXT) with
    | none =>
      have hnil : extractSitemapsFromRobotsTxt env websiteUrl = [] := by
        rw [extractSitemapsFromRobotsTxt, hget]
      rw [shouldCheckCommonPaths, robotsDirective, checkRobotsTxtForSitemapPath, hget, hnil]
    | some body =>
      by_cases hnil : extractSitemapsFromRobotsTxt env websiteUrl = []
      · rw [shouldCheckCommonPaths, hnil]
        simp
      · have hd : containsCI body "Sitemap: " = true :=
          robots_nonempty_directive env websiteUrl body hget hnil
        have hlen : ((extractSitemapsFromRobotsTxt env websiteUrl).length == 0) = false :=
          beq_eq_false_iff_ne.mpr fun hc => hnil (List.length_eq_zero.mp hc)
        simp only [shouldCheckCommonPaths, robotsDirective, checkRobotsTxtForSitemapPath, hget]
        rw [hd, hlen]
        simp
  refine ⟨key, fun hne => ?_⟩
  have hfalse : shouldCheckCommonPaths env websiteUrl = false := by
    rw [key]
    cases hget : env.get (env.resolve websiteUrl ROBOTS_TXT) with
    | none =>
      rw [extractSitemapsFromRobotsTxt, hget] at hne
      exact absurd rfl hne
    | some body =>
      have hd := robots_nonempty_directive env websiteUrl body hget hne
      have hlen : ((extractSitemapsFromRobotsTxt env websiteUrl).length == 0) = false :=
        beq_eq_false_iff_ne.mpr fun hc => hne (List.length_eq_zero.mp hc)
      simp only [robotsDirective, hget]
      rw [hd, hlen]
      simp
  refine ⟨hfalse, ?_⟩
  rw [getAllSitemapPaths, locatorCandidates, hfalse, if_neg (by simp), List.append_nil]

/-! ## Lemmas about the Sitemap Extractor -/

theorem mapLoc_map_some : ∀ ls : List String, mapLoc (ls.map some) = some ls := by
  intro ls
  induction ls with
  | nil => rfl
  | cons x rest ih => rw [List.map_cons, mapLoc, ih]; rfl

theorem urlsetLinks_all_some (sitemapUrl : String) :
    ∀ entries : List UrlEntry, (∀ e ∈ entries, e.loc.isSome) →
    urlsetLinks sitemapUrl entries
      = (entries.map fun e =>
          (⟨e.loc.getD "", none, some sitemapUrl, e.lastmod, e.priority, e.changefreq⟩ : PageLink),
         false) := by
  intro entries
  induction entries with
  | nil => intro _; rfl
  | cons e rest ih =>
    intro h
    cases hloc : e.loc with
    | none =>
      have := h e (List.mem_cons_self _ _)
      rw [hloc] at this
      cases this
    | some loc =>
      rw [urlsetLinks, hloc, ih fun y hy => h y (List.mem_cons_of_mem _ hy), List.map_cons, hloc]
      rfl

set_option maxRecDepth 10000 in
/-- C5 counterexample.  A body that fails XML parsing but contains a
`<loc>` pair is a processing failure whose result is NOT an empty
sequence: the regex fallback emits an entry. -/
theorem extractLinksFromSitemap_parse_failure_nonempty :
    envParseFail.get "https://s.com/bad.xml" = some "%%% <loc>https://a.com/2</loc> %%%"
    ∧ envParseFail.parseXml "%%% <loc>https://a.com/2</loc> %%%" = none
    ∧ extractLinksFromSitemap 1 envParseFail "https://s.com/bad.xml"
        = [⟨"https://a.com/2", none, some "https://s.com/bad.xml", none, none, none⟩] := by
  refine ⟨rfl, rfl, ?_⟩
  decide

/-- C5 (amended).  `extractLinksFromSitemap` never raises: a fetch
failure yields an empty sequence for that sitemap; an XML parse
failure falls back to the regex `<loc>` scan of the raw body (so is
not necessarily empty); and a sitemap index is exactly the
concatenation of the recursive extractions of its nested URLs in
order, so a failing nested extraction contributes an empty list for
its branch only, leaving sibling results unaffected. -/
theorem extractLinksFromSitemap_failure_containment (fuel : Nat) (env : Env)
    (sitemapUrl body : String) (nested : List String) :
    (env.get sitemapUrl = none → extractLinksFromSitemap (fuel + 1) env sitemapUrl = [])
    ∧ (env.get sitemapUrl = some body → env.parseXml body = none →
        extractLinksFromSitemap (fuel + 1) env sitemapUrl = locRegexLinks body sitemapUrl)
    ∧ (env.get sitemapUrl = some body →
        env.parseXml body = some (XmlDoc.sitemapindex (nested.map some)) →
        extractLinksFromSitemap (fuel + 1) env sitemapUrl
          = (nested.map fun nestedUrl => extractLinksFromSitemap fuel env nestedUrl).flatten) := by
  refine ⟨fun h => ?_, fun h hp => ?_, fun h hp => ?_⟩
  · simp only [extractLinksFromSitemap, h]
  · simp only [extractLinksFromSitemap, h, hp]
  · simp only [extractLinksFromSitemap, h, hp, mapLoc_map_some]

/-- C7.  A fetched sitemap parsing as a urlset whose entries all carry
a `<loc>` yields exactly one entry per urlset member: its url is the
`<loc>`, its source is the sitemap URL, and `lastmod`, `priority` and
`changefreq` are copied exactly when present. -/
theorem extractLinksFromSitemap_urlset (fuel : Nat) (env : Env) (sitemapUrl body : String)
    (entries : List UrlEntry)
    (hget : env.get sitemapUrl = some body)
    (hparse : env.parseXml body = some (XmlDoc.urlset entries))
    (hloc : ∀ e ∈ entries, e.loc.isSome) :
    extractLinksFromSitemap (fuel + 1) env sitemapUrl
      = entries.map fun e =>
          ⟨e.loc.getD "", none, some sitemapUrl, e.lastmod, e.priority, e.changefreq⟩ := by
  simp only [extractLinksFromSitemap, hget, hparse,
    urlsetLinks_all_some sitemapUrl entries hloc]
  simp

/-- Witness for C7: the spec's urlset scenario body evaluated in a
concrete world. -/
theorem extractLinksFromSitemap_urlset_witness :
    envUrlset.parseXml "URLSET"
        = some (XmlDoc.urlset [⟨some "https://a.com/1", some "2024-01-01", none, none⟩])
    ∧ extractLinksFromSitemap 1 envUrlset "https://s.com/sm.xml"
        = [⟨"https://a.com/1", none, some "https://s.com/sm.xml", some "2024-01-01", none, none⟩] :=
  ⟨rfl,
   (extractLinksFromSitemap_urlset 0 envUrlset "https://s.com/sm.xml" "URLSET"
      [⟨some "https://a.com/1", some "2024-01-01", none, none⟩] rfl rfl (by decide)).trans
     (by decide)⟩

/-- C8.  On a fetched page, every anchor contributes by the spec's
per-anchor rule: empty (or missing), `#...` and `javascript:...`
hrefs contribute nothing; every other anchor contributes exactly one
entry with the href resolved against the page URL, the page as source,
and the trimmed text (omitted when empty); no other filtering
happens. -/
theorem extractLinksFromPage_anchor_rules (env : Env) (pageUrl body : String)
    (hget : env.get pageUrl = some body) :
    extractLinksFromPage env pageUrl
      = (env.anchors body).filterMap (anchorEntrySpec env pageUrl) := by
  simp only [extractLinksFromPage, hget]
  refine List.filterMap_congr fun a _ => ?_
  rw [anchorEntrySpec]
  cases a.href with
  | none => rfl
  | some href =>
    by_cases h1 : href = ""
    · simp [h1]
    · by_cases h2 : (List.isPrefixOf "#".data href.data
          || List.isPrefixOf "javascript:".data href.data) = true
      · rcases Bool.or_eq_true_iff.mp h2 with h' | h' <;> simp [h1, h2, h']
      · simp [h1, h2, Bool.or_eq_true_iff.not.mp h2]

/-- Witness for C8: the spec's three scenario anchors (plus an
href-less and an empty-href anchor) on a concrete page. -/
theorem extractLinksFromPage_anchor_rules_witness :
    envPage.get "https://a.com/x" = some "PAGE"
    ∧ extractLinksFromPage envPage "https://a.com/x"
        = [⟨"https://a.com/x/about", some "About", some "https://a.com/x", none, none, none⟩] :=
  ⟨rfl, (extractLinksFromPage_anchor_rules envPage "https://a.com/x" "PAGE" rfl).trans (by decide)⟩

set_option maxRecDepth 10000 in
/-- C3 divergence.  On a urlset whose middle entry lacks a `<loc>`,
the structured loop throws a `TypeError` after emitting the first
entry; the inner catch then appends the regex-fallback entries for
both present `<loc>`s, so the first URL appears twice — the entry is
not skipped silently and the sibling entries are not unaffected. -/
theorem extractLinksFromSitemap_missing_loc_divergence :
    extractLinksFromSitemap 1 envMissingLoc "https://s.com/sm.xml"
      = [⟨"https://a.com/1", none, some "https://s.com/sm.xml", none, none, none⟩,
         ⟨"https://a.com/1", none, some "https://s.com/sm.xml", none, none, none⟩,
         ⟨"https://a.com/3", none, some "https://s.com/sm.xml", none, none, none⟩]
    ∧ ((extractLinksFromSitemap 1 envMissingLoc "https://s.com/sm.xml").map fun e => e.url).count
        "https://a.com/1" = 2 := by
  constructor
  · decide
  · decide
